import Mathlib

/-!
Verification of the PansGPT ingestion pipeline (`src/pansgpt_app.py`).

The development shallowly embeds the pipeline in Lean:

* Python strings are modelled as `List Char`; `bytes` payloads as `List Nat`.
* The regular-expression search `re.findall(r'url="([^"]+)"', content)` is
  modelled by `findUrls`, a left-to-right scanner that advances one character
  on a failed match and past the closing quote on a successful one, exactly
  like the `re` engine does for this pattern.
* The external collaborators (Supabase storage upload, Groq vision call,
  Supabase table queries) are modelled as explicit oracle arguments, and
  exception control flow as `Except`/sum results, so that every function of
  the source becomes a total Lean function.
* `fitz` block extraction is modelled by handing `process_pdf_file` the list
  of pages, each page a list of typed blocks carrying the `bbox[1]`
  coordinate (as a rational, since PDF coordinates are floats, and every
  float value is a rational).  Python's `list.sort(key=...)` is a stable
  sort; it is modelled by `List.insertionSort`, which is stable, and any two
  stable sorts agree extensionally for a total transitive comparison.
-/

open List

/-! ### Character-list utilities shared by the embedding -/

/-- Boolean "is a prefix of" on character lists (used by the scanner). -/
def startsL : List Char → List Char → Bool
  | [], _ => true
  | _ :: _, [] => false
  | p :: ps, c :: cs => p == c && startsL ps cs

/-- Python's `needle in hay` substring test. -/
def containsSub (needle : List Char) : List Char → Bool
  | [] => startsL needle []
  | c :: t => startsL needle (c :: t) || containsSub needle t

/-- The literal characters of the URL attribute pattern `url="`. -/
def urlPat : List Char := ['u', 'r', 'l', '=', '"']

/-- The four pattern characters that precede the quote, `url=`. -/
def urlEq : List Char := ['u', 'r', 'l', '=']

/-- `hasPat s` holds when `url="` occurs somewhere in `s`. -/
def hasPat (s : List Char) : Bool := containsSub urlPat s

/-- One attempted match of `url="([^"]+)"` at the head of the input.
On success returns the captured group and the input remaining after the
closing quote. -/
def matchAt (s : List Char) : Option (List Char × List Char) :=
  if startsL urlPat s then
    let rest := s.drop urlPat.length
    let cap := rest.takeWhile (fun c => c != '"')
    let rem := rest.drop cap.length
    if cap ≠ [] ∧ rem.headD ' ' = '"' then some (cap, rem.tail) else none
  else none

/-- Fuelled scanner for `re.findall(r'url="([^"]+)"', ·)`. -/
def findUrlsGo : Nat → List Char → List (List Char)
  | 0, _ => []
  | _ + 1, [] => []
  | fuel + 1, c :: t =>
    match matchAt (c :: t) with
    | some (cap, rest) => cap :: findUrlsGo fuel rest
    | none => findUrlsGo fuel t

/-- All captures of `re.findall(r'url="([^"]+)"', s)`, in order. -/
def findUrls (s : List Char) : List (List Char) := findUrlsGo s.length s

/-- Decimal representation of a natural number, as Python's `str` builds it. -/
def digitChar : Nat → Char
  | 0 => '0' | 1 => '1' | 2 => '2' | 3 => '3' | 4 => '4'
  | 5 => '5' | 6 => '6' | 7 => '7' | 8 => '8' | _ => '9'

/-- Fuelled helper for `natRepr`. -/
def natReprGo : Nat → Nat → List Char
  | 0, _ => []
  | fuel + 1, n =>
    if n < 10 then [digitChar n]
    else natReprGo fuel (n / 10) ++ [digitChar (n % 10)]

/-- Python's `str(n)` for a natural number. -/
def natRepr (n : Nat) : List Char := natReprGo (n + 1) n

/-- Python `str.strip()` whitespace test (the ASCII whitespace set). -/
def isPySpace (c : Char) : Bool :=
  c == ' ' || c == '\t' || c == '\n' || c == '\r' || c == '\x0b' || c == '\x0c'

/-- Python `str.strip()`. -/
def pyStrip (s : List Char) : List Char :=
  ((s.dropWhile isPySpace).reverse.dropWhile isPySpace).reverse

/-- Python `sep.join(parts)`. -/
def joinSep (sep : List Char) : List (List Char) → List Char
  | [] => []
  | [x] => x
  | x :: y :: xs => x ++ sep ++ joinSep sep (y :: xs)

/-- Python `name.split('.')[0]`: everything before the first dot. -/
def beforeFirstDot : List Char → List Char
  | [] => []
  | c :: t => if c = '.' then [] else c :: beforeFirstDot t

/-- Python `s.replace(" ", "_")`. -/
def spacesToUnderscores (s : List Char) : List Char :=
  s.map (fun c => if c = ' ' then '_' else c)

/-- Python `desc.replace('"', "'")` from line 229 of the source. -/
def cleanQuotes (s : List Char) : List Char :=
  s.map (fun c => if c = '"' then '\'' else c)

/-! ### Data model of `process_pdf_file` (src/pansgpt_app.py lines 195-237)

A content block is what `page.get_text("dict")["blocks"]` yields: a `type`
field (0 = text, 1 = image), the `bbox` (only `bbox[1]`, the top edge, is
used), and the type-specific payload: for text the lines of spans, for an
image the raw bytes and the extension. -/

/-- One extractor-reported content block of a page. -/
inductive Block
  | text (y : Rat) (lines : List (List (List Char)))
  | image (y : Rat) (bytes : List Nat) (ext : List Char)
deriving DecidableEq

/-- The sort key `lambda b: b["bbox"][1]` from line 210. -/
def blockY : Block → Rat
  | .text y _ => y
  | .image y _ _ => y

/-- Observable events of one pipeline run, in program order:
progress-bar updates (the fractional call `progress((i+1)/total)`, recorded
by the numerator and denominator of the reported fraction, and the final
integer call `progress(100)`; the widget creation `st.progress(0)` on line
200 renders the empty bar and is not an update), status-text updates, the
upload and vision calls made for an image, and a marker recording that the
iteration for page `i` finished. -/
inductive Ev
  | progress (completed total : Nat)
  | progressPct (n : Nat)
  | statusText (s : List Char)
  | storeCall (bytes : List Nat) (fname : List Char)
  | describeCall (bytes : List Nat)
  | pageDone (i : Nat)
deriving DecidableEq

/-- Running state of `process_pdf_file`: the accumulated `full_content`,
the per-document `image_count`, and the event trace. -/
structure PState where
  content : List Char
  count : Nat
  trace : List Ev
deriving DecidableEq

/-- External collaborators of the pipeline: the uploaded file's `name`,
the blob store (`upload_image_to_storage`, as a function from payload and
derived key to the returned URL string) and the vision describer
(`analyze_image_groq`, as a function from payload to description). -/
structure Ctx where
  fileName : List Char
  store : List Nat → List Char → List Char
  describe : List Nat → List Char

/-- The inline token of line 230:
`\n<<SLIDE_IMAGE: url="{url}" caption="Img {n} (Page {p})" context="{desc}">>\n`. -/
def slideToken (u : List Char) (n p : Nat) (d : List Char) : List Char :=
  "\n<<SLIDE_IMAGE: url=\"".data ++ u ++ "\" caption=\"Img ".data ++ natRepr n ++
    " (Page ".data ++ natRepr p ++ ")\" context=\"".data ++ d ++ "\">>\n".data

/-- Lines 212-233: the body of the per-block loop, for page index `i`. -/
def processBlock (ctx : Ctx) (i : Nat) (st : PState) : Block → PState
  | .text _ lns =>
    let t := pyStrip (joinSep [' '] lns.flatten)
    if t = [] then st
    else { st with content := st.content ++ t ++ "\n\n".data }
  | .image _ bytes ext0 =>
    let count := st.count + 1
    if bytes.length < 2048 then { st with count := count }
    else
      let cleanName := spacesToUnderscores (beforeFirstDot ctx.fileName)
      let fname := "doc_".data ++ cleanName ++ "_p".data ++ natRepr i ++
        "_img".data ++ natRepr count ++ ['.'] ++ ext0
      let pubUrl := ctx.store bytes fname
      let cleanDesc := cleanQuotes (ctx.describe bytes)
      let token := slideToken pubUrl count (i + 1) cleanDesc
      { content := st.content ++ token ++ "\n".data
        count := count
        trace := st.trace ++ [.storeCall bytes fname, .describeCall bytes] }

/-- Line 210: `blocks.sort(key=lambda b: b["bbox"][1])` — a stable sort by
the top-edge coordinate (Python's sort is stable; `insertionSort` is the
stable sort for this total transitive comparison). -/
def sortBlocks (bs : List Block) : List Block :=
  bs.insertionSort (fun a b => blockY a ≤ blockY b)

/-- The status line of line 207, `Processing Page {i+1}/{total}...`. -/
def statusLine (i total : Nat) : List Char :=
  "Processing Page ".data ++ natRepr (i + 1) ++ ['/'] ++ natRepr total ++ "...".data

/-- Lines 205-233: one iteration of the page loop: report progress, sort the
page's blocks, process them in sorted order, and finish the iteration. -/
def processPage (ctx : Ctx) (total i : Nat) (blocks : List Block) (st : PState) : PState :=
  let st1 : PState :=
    { st with trace := st.trace ++ [.progress (i + 1) total, .statusText (statusLine i total)] }
  let st2 := (sortBlocks blocks).foldl (processBlock ctx i) st1
  { st2 with trace := st2.trace ++ [.pageDone i] }

/-- The page loop of lines 205-233, carrying the absolute page index. -/
def procPages (ctx : Ctx) (total : Nat) : Nat → List (List Block) → PState → PState
  | _, [], st => st
  | i, pg :: rest, st => procPages ctx total (i + 1) rest (processPage ctx total i pg st)

/-- `process_pdf_file` (lines 195-237) given the extracted pages: runs the
page loop from a fresh state and finishes with `progress(100)` and the
`Done!` status text.  The returned `content` is the function's return value
`full_content`. -/
def processPdfFile (ctx : Ctx) (pages : List (List Block)) : PState :=
  let st := procPages ctx pages.length 0 pages { content := [], count := 0, trace := [] }
  { st with trace := st.trace ++ [.progressPct 100, .statusText "Done!".data] }

/-- Line 196: `fitz.open(stream=..., filetype="pdf")` raises on a byte
buffer that is not a valid PDF, and `process_pdf_file` propagates that
exception; a buffer PyMuPDF can parse yields its (possibly empty) list of
pages and the run proceeds.  The parsed input is therefore `none` for an
unreadable buffer and `some pages` otherwise. -/
def processPdfFileE (ctx : Ctx) (pdf : Option (List (List Block))) : Except Unit PState :=
  match pdf with
  | none => .error ()
  | some pages => .ok (processPdfFile ctx pages)

/-- The URLs produced during linearization, in order: the blob-store result
for each upload call of the trace. -/
def producedUrls (store : List Nat → List Char → List Char) (tr : List Ev) : List (List Char) :=
  tr.filterMap (fun e => match e with
    | .storeCall bytes fname => some (store bytes fname)
    | _ => none)

/-- The fractional progress reports of a trace, in order: the rational
value `completed / total` passed to each fractional `progress` call. -/
def progressFracs (tr : List Ev) : List Rat :=
  tr.filterMap (fun e => match e with
    | .progress c t => some ((c : Rat) / (t : Rat))
    | _ => none)

/-! ### `upload_image_to_storage` (lines 152-171) -/

/-- Outcome of the single `requests.post` call: either a response with a
status code and body text, or a raised exception (network fault etc.). -/
inductive HttpOutcome
  | response (status : Nat) (text : List Char)
  | raised
deriving DecidableEq

/-- Python truthiness of a possibly missing configuration string:
`not SUPABASE_URL` is true when the variable is unset or empty. -/
def isFalsyStr : Option (List Char) → Bool
  | none => true
  | some s => s.isEmpty

/-- The bucket name, `SUPABASE_BUCKET = "lecture-images"` (line 57). -/
def supabaseBucket : List Char := "lecture-images".data

/-- The public URL built on line 166. -/
def publicUrl (supabaseUrl fname : List Char) : List Char :=
  supabaseUrl ++ "/storage/v1/object/public/".data ++ supabaseBucket ++ ['/'] ++ fname

/-- Placeholder returned when credentials are missing (line 155). -/
def credsPlaceholder : List Char := "https://placeholder.url/credentials_missing.png".data

/-- Placeholder returned when the upload fails (line 169). -/
def failedPlaceholder : List Char := "https://placeholder.url/upload_failed.png".data

/-- Placeholder returned when `requests.post` raises (line 171). -/
def errorPlaceholder : List Char := "https://placeholder.url/error.png".data

/-- `upload_image_to_storage` (lines 152-171), with the HTTP round trip as an
oracle argument.  The image payload is unused for the result, exactly as in
the source, where it only feeds the request body. -/
def upload_image_to_storage (supabaseUrl supabaseKey : Option (List Char))
    (_imageBytes : List Nat) (fname : List Char) (post : HttpOutcome) : List Char :=
  if isFalsyStr supabaseUrl || isFalsyStr supabaseKey then credsPlaceholder
  else
    match post with
    | .raised => errorPlaceholder
    | .response status text =>
      if status == 200 || status == 409 || containsSub "Duplicate".data text then
        publicUrl (supabaseUrl.getD []) fname
      else failedPlaceholder

/-! ### `delete_document` (lines 100-137) -/

/-- The bucket path segment `f"/{SUPABASE_BUCKET}/"` used on lines 118-120. -/
def bucketSeg : List Char := "/lecture-images/".data

/-- Fuelled scanner for Python `url.split(sep)[-1]` with `sep = bucketSeg`:
the suffix after the last non-overlapping occurrence of the separator in a
left-to-right scan, or the whole string when the separator is absent. -/
def afterBucketGo : Nat → List Char → List Char → List Char
  | 0, cur, _ => cur
  | fuel + 1, cur, s =>
    if startsL bucketSeg s then
      afterBucketGo fuel (s.drop bucketSeg.length) (s.drop bucketSeg.length)
    else
      match s with
      | [] => cur
      | _ :: t => afterBucketGo fuel cur t

/-- Python `url.split(f"/{SUPABASE_BUCKET}/")[-1]` (line 120). -/
def afterBucket (s : List Char) : List Char := afterBucketGo s.length s s

/-- Lines 113-121: the file names submitted for storage removal, one for
each extracted URL that contains the bucket segment. -/
def filesToRemove (content : List Char) : List (List Char) :=
  ((findUrls content).filter (fun u => containsSub bucketSeg u)).map afterBucket

/-- Oracle for the three external calls `delete_document` makes: the
content lookup (which can raise, or find no row, or return the row's
content), the storage `remove` call and the table `delete` call (each of
which can raise). -/
structure DelOracle where
  fetchContent : Except Unit (Option (List Char))
  removeResult : Except Unit Unit
  deleteResult : Except Unit Unit

/-- Observable actions of `delete_document`, in program order. -/
inductive DelEv
  | removeCall (files : List (List Char))
  | cleanupWarning
  | deleteRowCall
  | deleteError
  | successToast
deriving DecidableEq

/-- `delete_document` (lines 100-137) as the sequence of actions it
performs.  The first `try` block fetches the content, extracts bucket
files and removes them when any exist; any exception there only logs a
warning.  The second `try` block always attempts the metadata-row
deletion. -/
def delete_document (supabaseConfigured : Bool) (o : DelOracle) : List DelEv :=
  if !supabaseConfigured then []
  else
    let cleanup :=
      match o.fetchContent with
      | .error _ => [DelEv.cleanupWarning]
      | .ok none => []
      | .ok (some content) =>
        let files := filesToRemove content
        if files.isEmpty then []
        else
          match o.removeResult with
          | .ok _ => [DelEv.removeCall files]
          | .error _ => [DelEv.removeCall files, DelEv.cleanupWarning]
    let deletion :=
      match o.deleteResult with
      | .ok _ => [DelEv.deleteRowCall, DelEv.successToast]
      | .error _ => [DelEv.deleteRowCall, DelEv.deleteError]
    cleanup ++ deletion

/-! ### `get_upload_history` (lines 139-148) -/

/-- One row of the `documents` table, reduced to the fields the query
semantics depend on: the creation timestamp used for ordering and an
identifier standing for the rest of the row. -/
structure HistRow where
  ident : Nat
  created_at : Int
deriving DecidableEq

/-- The PostgREST query `.order("created_at", desc=True).limit(50)` of
line 145, applied to the table's rows: sort by `created_at` descending and
return at most the first 50. -/
def historyQuery (table : List HistRow) : List HistRow :=
  (table.insertionSort (fun a b => b.created_at ≤ a.created_at)).take 50

/-- `get_upload_history` (lines 139-148): the empty list when no Supabase
client is configured, the empty list when the query raises, and the query
result otherwise. -/
def get_upload_history (supabaseConfigured : Bool) (table : List HistRow)
    (queryRaises : Bool) : List HistRow :=
  if !supabaseConfigured then []
  else if queryRaises then []
  else historyQuery table

/-! ### Auxiliary definitions used by the statements -/

/-- The decimal digit characters. -/
def decDigits : List Char := "0123456789".data

/-- A fragment the per-block loop can append to `full_content`, together
with the URLs produced while emitting it: nothing, a text paragraph whose
text has no occurrence of `url="`, or a complete inline token. -/
def GoodPiece (piece : List Char) (urls : List (List Char)) : Prop :=
  (piece = [] ∧ urls = [])
  ∨ (∃ t, hasPat t = false ∧ piece = t ++ "\n\n".data ∧ urls = [])
  ∨ (∃ u n p d, u ≠ [] ∧ '"' ∉ u ∧ '"' ∉ d ∧ ¬ urlEq <:+ d ∧
      piece = slideToken u n p d ++ "\n".data ∧ urls = [u])

/-- Side condition on the blob store oracle: every URL it returns is
nonempty and free of double quotes. -/
def GoodStore (store : List Nat → List Char → List Char) : Prop :=
  ∀ bytes fname, store bytes fname ≠ [] ∧ '"' ∉ store bytes fname

/-- Side condition on the vision oracle: no escaped description ends with
the four characters `url=`. -/
def GoodDescribe (describe : List Nat → List Char) : Prop :=
  ∀ bytes, ¬ urlEq <:+ cleanQuotes (describe bytes)

/-- Side condition on a block: if it is a text block, its stripped joined
text contains no occurrence of `url="`. -/
def TextOk (b : Block) : Prop :=
  ∀ y lns, b = Block.text y lns → hasPat (pyStrip (joinSep [' '] lns.flatten)) = false

/-- The storage key the code derives (lines 222-223): `doc_` plus the
uploaded name truncated at its first dot with spaces replaced by
underscores, `_p` plus the 0-based page index, `_img` plus the image
ordinal, then a dot and the image's own extension. -/
def derivedKey (fileName : List Char) (i n : Nat) (ext0 : List Char) : List Char :=
  "doc_".data ++ spacesToUnderscores (beforeFirstDot fileName) ++ "_p".data ++
    natRepr i ++ "_img".data ++ natRepr n ++ ['.'] ++ ext0

/-- The sanitized source name as §6 of the specification words it: spaces
replaced with underscores and only the extension stripped, i.e. everything
before the last dot (the whole name when it has no dot). -/
def specSanitizedName (s : List Char) : List Char :=
  spacesToUnderscores
    (if '.' ∈ s then ((s.reverse.dropWhile (fun c => c ≠ '.')).tail).reverse else s)

/-- The storage key exactly as the specification words it. -/
def specKey (fileName : List Char) (i n : Nat) (ext0 : List Char) : List Char :=
  "doc_".data ++ specSanitizedName fileName ++ "_p".data ++ natRepr i ++
    "_img".data ++ natRepr n ++ ['.'] ++ ext0

/-- A concrete blob-store oracle used for concrete runs. -/
def sampleStore : List Nat → List Char → List Char := fun _ _ => "https://h/p.png".data

/-- A concrete vision oracle used for concrete runs. -/
def sampleDescribe : List Nat → List Char := fun _ => "d".data

/-- A concrete pipeline context used for concrete runs. -/
def sampleCtx : Ctx :=
  { fileName := "f.pdf".data, store := sampleStore, describe := sampleDescribe }

/-- A context whose source file name contains an inner dot. -/
def dottedCtx : Ctx :=
  { fileName := "a.b.pdf".data, store := sampleStore, describe := sampleDescribe }

/-- A 2048-byte image payload (at the threshold). -/
def bigBytes : List Nat := List.replicate 2048 0

/-! ## Lemmas

### The scanner `findUrls` -/

theorem startsL_exists_append {p s : List Char} (h : startsL p s = true) :
    ∃ t, s = p ++ t := by
  induction p generalizing s with
  | nil => exact ⟨s, rfl⟩
  | cons q ps ih =>
    cases s with
    | nil => simp [startsL] at h
    | cons c cs =>
      simp only [startsL, Bool.and_eq_true, beq_iff_eq] at h
      obtain ⟨t, ht⟩ := ih h.2
      exact ⟨t, by simp [h.1, ht]⟩

theorem startsL_append_self (p t : List Char) : startsL p (p ++ t) = true := by
  induction p with
  | nil => rfl
  | cons q ps ih => simp [startsL, ih]

theorem startsL_subset {p s : List Char} (h : startsL p s = true) : ∀ x ∈ p, x ∈ s := by
  obtain ⟨t, rfl⟩ := startsL_exists_append h
  intro x hx
  exact List.mem_append_left _ hx

theorem hasPat_cons (c : Char) (t : List Char) :
    hasPat (c :: t) = (startsL urlPat (c :: t) || hasPat t) := rfl

theorem hasPat_of_not_mem_quote {s : List Char} (h : '"' ∉ s) : hasPat s = false := by
  induction s with
  | nil => rfl
  | cons c t ih =>
    rw [hasPat_cons]
    have h1 : startsL urlPat (c :: t) = false := by
      cases hs : startsL urlPat (c :: t) with
      | false => rfl
      | true => exact absurd (startsL_subset hs '"' (by decide)) h
    have h2 : hasPat t = false := ih (fun hm => h (List.mem_cons_of_mem c hm))
    simp [h1, h2]

theorem matchAt_none_of_startsL {s : List Char} (h : startsL urlPat s = false) :
    matchAt s = none := by
  simp [matchAt, h]

theorem matchAt_length {s cap rest : List Char} (h : matchAt s = some (cap, rest)) :
    rest.length < s.length := by
  by_cases hs : startsL urlPat s = true
  · obtain ⟨t, rfl⟩ := startsL_exists_append hs
    simp only [matchAt, hs, if_true, List.drop_left] at h
    split at h
    · simp only [Option.some.injEq, Prod.mk.injEq] at h
      obtain ⟨-, rfl⟩ := h
      simp only [List.length_tail, List.length_drop, List.length_append]
      have := (List.takeWhile_sublist (l := t) (fun c => c != '"')).length_le
      have h5 : urlPat.length = 5 := rfl
      omega
    · simp at h
  · rw [matchAt_none_of_startsL (by simpa using hs)] at h
    simp at h

theorem findUrlsGo_congr : ∀ (f1 f2 : Nat) (s : List Char), s.length ≤ f1 → s.length ≤ f2 →
    findUrlsGo f1 s = findUrlsGo f2 s := by
  intro f1
  induction f1 with
  | zero =>
    intro f2 s h1 _
    have : s = [] := List.eq_nil_of_length_eq_zero (Nat.le_zero.mp h1)
    subst this
    cases f2 <;> rfl
  | succ f ih =>
    intro f2 s h1 h2
    cases s with
    | nil => cases f2 <;> rfl
    | cons c t =>
      cases f2 with
      | zero => simp at h2
      | succ f2' =>
        simp only [findUrlsGo]
        cases hm : matchAt (c :: t) with
        | none =>
          have hl : t.length ≤ f := by simp at h1; omega
          have hl2 : t.length ≤ f2' := by simp at h2; omega
          exact ih f2' t hl hl2
        | some pr =>
          obtain ⟨cap, rest⟩ := pr
          have := matchAt_length hm
          simp only [List.length_cons] at this h1 h2
          exact congrArg (cap :: ·) (ih f2' rest (by omega) (by omega))

theorem findUrls_cons_none {c : Char} {t : List Char} (h : matchAt (c :: t) = none) :
    findUrls (c :: t) = findUrls t := by
  simp [findUrls, findUrlsGo, h]

theorem findUrls_cons_some {c : Char} {t cap rest : List Char}
    (h : matchAt (c :: t) = some (cap, rest)) :
    findUrls (c :: t) = cap :: findUrls rest := by
  have hlen := matchAt_length h
  simp only [List.length_cons] at hlen
  simp only [findUrls, List.length_cons, findUrlsGo, h]
  exact congrArg (cap :: ·) (findUrlsGo_congr t.length rest.length rest (by omega) le_rfl)

theorem matchAt_of_some {s cap rest : List Char} (h : matchAt s = some (cap, rest)) :
    s ≠ [] := by
  intro hs
  subst hs
  simp [matchAt, startsL, urlPat] at h

theorem findUrls_some {s cap rest : List Char} (h : matchAt s = some (cap, rest)) :
    findUrls s = cap :: findUrls rest := by
  cases s with
  | nil => exact absurd rfl (matchAt_of_some h)
  | cons c t => exact findUrls_cons_some h

theorem bool_eq_false_of_or {x y : Bool} (h : (x || y) = false) :
    x = false ∧ y = false := by
  cases x <;> cases y <;> simp_all

/-- Scanning skips over a segment that contains no occurrence of `url="`
and whose final character is not one of `u`, `r`, `l`, `=` (so that no
occurrence can straddle the boundary with what follows). -/
theorem findUrls_inert (A R : List Char) (h1 : hasPat A = false)
    (h2 : ∀ c, A.getLast? = some c → c ∉ urlEq) :
    findUrls (A ++ R) = findUrls R := by
  induction A with
  | nil => simp
  | cons a A' ih =>
    rw [hasPat_cons] at h1
    obtain ⟨hA1, hA2⟩ := bool_eq_false_of_or h1
    have hnone : startsL urlPat (a :: (A' ++ R)) = false := by
      by_contra hcon
      rw [Bool.not_eq_false] at hcon
      rcases A' with _ | ⟨a2, _ | ⟨a3, _ | ⟨a4, _ | ⟨a5, tl⟩⟩⟩⟩
      · simp only [List.cons_append, List.nil_append, startsL, urlPat,
          Bool.and_eq_true, beq_iff_eq] at hcon
        obtain ⟨rfl, -⟩ := hcon
        exact h2 'u' (by simp) (by decide)
      · simp only [List.cons_append, List.nil_append, startsL, urlPat,
          Bool.and_eq_true, beq_iff_eq] at hcon
        obtain ⟨rfl, rfl, -⟩ := hcon
        exact h2 'r' (by simp) (by decide)
      · simp only [List.cons_append, List.nil_append, startsL, urlPat,
          Bool.and_eq_true, beq_iff_eq] at hcon
        obtain ⟨rfl, rfl, rfl, -⟩ := hcon
        exact h2 'l' (by simp) (by decide)
      · simp only [List.cons_append, List.nil_append, startsL, urlPat,
          Bool.and_eq_true, beq_iff_eq] at hcon
        obtain ⟨rfl, rfl, rfl, rfl, -⟩ := hcon
        exact h2 '=' (by simp) (by decide)
      · simp only [List.cons_append, startsL, urlPat,
          Bool.and_eq_true, beq_iff_eq] at hcon
        obtain ⟨rfl, rfl, rfl, rfl, rfl, -⟩ := hcon
        simp [startsL, urlPat] at hA1
    rw [List.cons_append]
    rw [findUrls_cons_none (matchAt_none_of_startsL hnone)]
    cases A' with
    | nil => simp
    | cons b B =>
      exact ih hA2 (fun c hc => h2 c (by rw [List.getLast?_cons_cons]; exact hc))

/-- Scanning consumes a quote-free description that does not end in `url=`,
together with the closing quote that follows it, without matching. -/
theorem findUrls_desc (d X : List Char) (hq : '"' ∉ d) (hs : ¬ urlEq <:+ d) :
    findUrls (d ++ '"' :: X) = findUrls X := by
  induction d with
  | nil =>
    rw [List.nil_append,
      findUrls_cons_none (matchAt_none_of_startsL (by simp [startsL, urlPat]))]
  | cons c d' ih =>
    have hnone : startsL urlPat (c :: (d' ++ '"' :: X)) = false := by
      by_contra hcon
      rw [Bool.not_eq_false] at hcon
      rcases d' with _ | ⟨c2, _ | ⟨c3, _ | ⟨c4, tl⟩⟩⟩
      · simp [startsL, urlPat] at hcon
      · simp [startsL, urlPat] at hcon
      · simp [startsL, urlPat] at hcon
      · rcases tl with _ | ⟨c5, tl'⟩
        · simp only [List.cons_append, List.nil_append, startsL, urlPat,
            Bool.and_eq_true, beq_iff_eq] at hcon
          obtain ⟨rfl, rfl, rfl, rfl, -⟩ := hcon
          exact hs ⟨[], rfl⟩
        · simp only [List.cons_append, startsL, urlPat,
            Bool.and_eq_true, beq_iff_eq] at hcon
          obtain ⟨-, -, -, -, rfl, -⟩ := hcon
          exact hq (by simp)
    rw [List.cons_append]
    rw [findUrls_cons_none (matchAt_none_of_startsL hnone)]
    exact ih (fun hm => hq (List.mem_cons_of_mem c hm))
      (fun hsuf => hs (hsuf.trans (List.suffix_cons c d')))

theorem matchAt_token (u X : List Char) (hne : u ≠ []) (hu : '"' ∉ u) :
    matchAt (urlPat ++ (u ++ '"' :: X)) = some (u, X) := by
  have h1 : startsL urlPat (urlPat ++ (u ++ '"' :: X)) = true := startsL_append_self _ _
  have hpos : ∀ a ∈ u, (a != '"') = true := by
    intro a ha
    simp only [bne_iff_ne, ne_eq]
    intro e
    exact hu (e ▸ ha)
  have hcap : (u ++ '"' :: X).takeWhile (fun c => c != '"') = u := by
    rw [List.takeWhile_append_of_pos hpos]
    simp [List.takeWhile_cons]
  simp only [matchAt, h1, if_true, List.drop_left, hcap]
  rw [if_pos ⟨hne, rfl⟩]
  rfl

theorem findUrls_token (u X : List Char) (hne : u ≠ []) (hu : '"' ∉ u) :
    findUrls (urlPat ++ (u ++ '"' :: X)) = u :: findUrls X :=
  findUrls_some (matchAt_token u X hne hu)

/-- Appending the paragraph break `"\n\n"` to a text fragment that has no
occurrence of `url="` yields a string that still has none. -/
theorem hasPat_append_nl2 (t : List Char) (h : hasPat t = false) :
    hasPat (t ++ "\n\n".data) = false := by
  induction t with
  | nil => decide
  | cons c t' ih =>
    rw [hasPat_cons] at h
    obtain ⟨h1, h2⟩ := bool_eq_false_of_or h
    rw [List.cons_append, hasPat_cons]
    have hh : startsL urlPat (c :: (t' ++ "\n\n".data)) = false := by
      by_contra hcon
      rw [Bool.not_eq_false] at hcon
      rcases t' with _ | ⟨c2, _ | ⟨c3, _ | ⟨c4, _ | ⟨c5, tl⟩⟩⟩⟩
      · simp [startsL, urlPat] at hcon
      · simp [startsL, urlPat] at hcon
      · simp [startsL, urlPat] at hcon
      · simp [startsL, urlPat] at hcon
      · simp only [List.cons_append, startsL, urlPat,
          Bool.and_eq_true, beq_iff_eq] at hcon
        obtain ⟨rfl, rfl, rfl, rfl, rfl, -⟩ := hcon
        simp [startsL, urlPat] at h1
    rw [hh, ih h2]
    rfl

/-- Helper to discharge the barrier condition of `findUrls_inert` from a
computed last character. -/
theorem lastCharSafe {A : List Char} {c0 : Char} (h : A.getLast? = some c0)
    (hc : c0 ∉ urlEq) : ∀ c, A.getLast? = some c → c ∉ urlEq := by
  intro c hcc
  rw [h] at hcc
  injection hcc with e
  exact e ▸ hc

/-! ### Decimal representations are made of digits -/

theorem digitChar_mem (n : Nat) : digitChar n ∈ decDigits := by
  rcases n with _ | _ | _ | _ | _ | _ | _ | _ | _ | m <;> first
    | decide
    | (show digitChar (m + 9) ∈ decDigits; simp [digitChar, decDigits])

theorem natReprGo_digits : ∀ (fuel n : Nat), ∀ c ∈ natReprGo fuel n, c ∈ decDigits := by
  intro fuel
  induction fuel with
  | zero => intro n c hc; simp [natReprGo] at hc
  | succ f ih =>
    intro n c hc
    by_cases h10 : n < 10
    · simp only [natReprGo, if_pos h10, List.mem_singleton] at hc
      exact hc ▸ digitChar_mem n
    · simp only [natReprGo, if_neg h10, List.mem_append, List.mem_singleton] at hc
      rcases hc with hc | hc
      · exact ih (n / 10) c hc
      · exact hc ▸ digitChar_mem (n % 10)

theorem natRepr_digits (n : Nat) : ∀ c ∈ natRepr n, c ∈ decDigits :=
  natReprGo_digits (n + 1) n

theorem natRepr_ne_nil (n : Nat) : natRepr n ≠ [] := by
  unfold natRepr natReprGo
  by_cases h10 : n < 10
  · simp [if_pos h10]
  · simp [if_neg h10]

theorem natRepr_no_quote (n : Nat) : '"' ∉ natRepr n := by
  intro h
  have := natRepr_digits n '"' h
  revert this
  decide

theorem natRepr_hasPat (n : Nat) : hasPat (natRepr n) = false :=
  hasPat_of_not_mem_quote (natRepr_no_quote n)

theorem natRepr_lastSafe (n : Nat) : ∀ c, (natRepr n).getLast? = some c → c ∉ urlEq := by
  intro c hc hurl
  have hm : c ∈ natRepr n := by
    have hne := natRepr_ne_nil n
    rw [List.getLast?_eq_getLast _ hne] at hc
    injection hc with e
    exact e ▸ List.getLast_mem hne
  have hd := natRepr_digits n c hm
  fin_cases hd <;> exact absurd hurl (by decide)

/-- Parsing a complete inline token (followed by the extra `"\n"` the code
appends and then arbitrary content) yields exactly its URL and continues
after the token, provided the URL is nonempty and quote-free and the
escaped description is quote-free and does not end in `url=`. -/
theorem findUrls_slideToken (u : List Char) (n p : Nat) (d X : List Char)
    (hne : u ≠ []) (hu : '"' ∉ u) (hd : '"' ∉ d) (hs : ¬ urlEq <:+ d) :
    findUrls ((slideToken u n p d ++ "\n".data) ++ X) = u :: findUrls X := by
  have e1 : "\n<<SLIDE_IMAGE: url=\"".data = "\n<<SLIDE_IMAGE: ".data ++ urlPat := by decide
  have e2 : "\" caption=\"Img ".data = '"' :: " caption=\"Img ".data := by decide
  have e3 : "\">>\n".data = '"' :: ">>\n".data := by decide
  have hdecomp : (slideToken u n p d ++ "\n".data) ++ X =
      "\n<<SLIDE_IMAGE: ".data ++ (urlPat ++ (u ++ '"' ::
        (" caption=\"Img ".data ++ (natRepr n ++ (" (Page ".data ++ (natRepr p ++
          (")\" context=\"".data ++ (d ++ '"' :: (">>\n\n".data ++ X))))))))) := by
    rw [slideToken, e1, e2, e3]
    simp only [List.append_assoc, List.cons_append, List.singleton_append, List.nil_append]
  rw [hdecomp]
  rw [findUrls_inert "\n<<SLIDE_IMAGE: ".data _ (by decide)
    (lastCharSafe (rfl : ("\n<<SLIDE_IMAGE: ".data).getLast? = some ' ') (by decide))]
  rw [findUrls_token u _ hne hu]
  rw [findUrls_inert " caption=\"Img ".data _ (by decide)
    (lastCharSafe (rfl : (" caption=\"Img ".data).getLast? = some ' ') (by decide))]
  rw [findUrls_inert (natRepr n) _ (natRepr_hasPat n) (natRepr_lastSafe n)]
  rw [findUrls_inert " (Page ".data _ (by decide)
    (lastCharSafe (rfl : (" (Page ".data).getLast? = some ' ') (by decide))]
  rw [findUrls_inert (natRepr p) _ (natRepr_hasPat p) (natRepr_lastSafe p)]
  rw [findUrls_inert ")\" context=\"".data _ (by decide)
    (lastCharSafe (rfl : (")\" context=\"".data).getLast? = some '"') (by decide))]
  rw [findUrls_desc d _ hd hs]
  rw [findUrls_inert ">>\n\n".data _ (by decide)
    (lastCharSafe (rfl : (">>\n\n".data).getLast? = some '\n') (by decide))]

/-- Round trip over a stream of good fragments: parsing the concatenation
recovers exactly the produced URLs, in order. -/
theorem findUrls_pieces : ∀ (ps : List (List Char × List (List Char))),
    (∀ pr ∈ ps, GoodPiece pr.1 pr.2) →
    findUrls (ps.map Prod.fst).flatten = (ps.map Prod.snd).flatten := by
  intro ps
  induction ps with
  | nil => intro _; rfl
  | cons pr ps' ih =>
    intro h
    obtain ⟨p1, p2⟩ := pr
    have hpr := h (p1, p2) (List.mem_cons_self _ ps')
    have hrest := ih (fun q hq => h q (List.mem_cons_of_mem _ hq))
    simp only [List.map_cons, List.flatten_cons]
    rcases hpr with ⟨rfl, rfl⟩ | ⟨t, ht, rfl, rfl⟩ |
      ⟨u, n, p, d, hne, hu, hd, hs, rfl, rfl⟩
    · simpa using hrest
    · rw [findUrls_inert (t ++ "\n\n".data) _ (hasPat_append_nl2 t ht)
        (lastCharSafe (by rw [List.getLast?_append_of_ne_nil _ (by decide)]; rfl) (by decide))]
      simpa using hrest
    · rw [findUrls_slideToken u n p d _ hne hu hd hs]
      simpa using hrest

/-! ### What each block appends to the document and to the trace -/

theorem cleanQuotes_no_quote (s : List Char) : '"' ∉ cleanQuotes s := by
  intro h
  rw [cleanQuotes, List.mem_map] at h
  obtain ⟨c, -, hc⟩ := h
  by_cases hq : c = '"'
  · rw [if_pos hq] at hc
    exact absurd hc (by decide)
  · rw [if_neg hq] at hc
    exact hq hc

theorem producedUrls_append (store : List Nat → List Char → List Char) (t1 t2 : List Ev) :
    producedUrls store (t1 ++ t2) = producedUrls store t1 ++ producedUrls store t2 :=
  List.filterMap_append t1 t2 _

theorem progressFracs_append (t1 t2 : List Ev) :
    progressFracs (t1 ++ t2) = progressFracs t1 ++ progressFracs t2 :=
  List.filterMap_append t1 t2 _

theorem processBlock_emits (ctx : Ctx) (i : Nat) (st : PState) (b : Block)
    (hb : TextOk b) (hstore : GoodStore ctx.store) (hdesc : GoodDescribe ctx.describe) :
    ∃ piece urls, GoodPiece piece urls ∧
      (processBlock ctx i st b).content = st.content ++ piece ∧
      (processBlock ctx i st b).count = st.count + (if b matches Block.image .. then 1 else 0) ∧
      producedUrls ctx.store (processBlock ctx i st b).trace =
        producedUrls ctx.store st.trace ++ urls := by
  cases b with
  | text y lns =>
    by_cases ht : pyStrip (joinSep [' '] lns.flatten) = []
    · exact ⟨[], [], Or.inl ⟨rfl, rfl⟩, by simp [processBlock, ht],
        by simp [processBlock, ht], by simp [processBlock, ht]⟩
    · refine ⟨pyStrip (joinSep [' '] lns.flatten) ++ "\n\n".data, [],
        Or.inr (Or.inl ⟨_, hb y lns rfl, rfl, rfl⟩), ?_, ?_, ?_⟩
      · simp [processBlock, ht, List.append_assoc]
      · simp [processBlock, ht]
      · simp [processBlock, ht]
  | image y bytes ext0 =>
    by_cases hlen : bytes.length < 2048
    · exact ⟨[], [], Or.inl ⟨rfl, rfl⟩, by simp [processBlock, hlen],
        by simp [processBlock, hlen], by simp [processBlock, hlen]⟩
    · refine ⟨slideToken
          (ctx.store bytes ("doc_".data ++ spacesToUnderscores (beforeFirstDot ctx.fileName) ++
            "_p".data ++ natRepr i ++ "_img".data ++ natRepr (st.count + 1) ++ ['.'] ++ ext0))
          (st.count + 1) (i + 1) (cleanQuotes (ctx.describe bytes)) ++ "\n".data,
        [ctx.store bytes ("doc_".data ++ spacesToUnderscores (beforeFirstDot ctx.fileName) ++
            "_p".data ++ natRepr i ++ "_img".data ++ natRepr (st.count + 1) ++ ['.'] ++ ext0)],
        Or.inr (Or.inr ⟨_, st.count + 1, i + 1, _,
          (hstore bytes _).1, (hstore bytes _).2, cleanQuotes_no_quote _, hdesc bytes,
          rfl, rfl⟩), ?_, ?_, ?_⟩
      · simp [processBlock, hlen, List.append_assoc]
      · simp [processBlock, hlen]
      · simp [processBlock, hlen, producedUrls, List.filterMap_append]

theorem foldl_emits (ctx : Ctx) (i : Nat) (hstore : GoodStore ctx.store)
    (hdesc : GoodDescribe ctx.describe) :
    ∀ (bs : List Block) (st : PState), (∀ b ∈ bs, TextOk b) →
    ∃ ps : List (List Char × List (List Char)),
      (∀ pr ∈ ps, GoodPiece pr.1 pr.2) ∧
      (bs.foldl (processBlock ctx i) st).content = st.content ++ (ps.map Prod.fst).flatten ∧
      producedUrls ctx.store (bs.foldl (processBlock ctx i) st).trace =
        producedUrls ctx.store st.trace ++ (ps.map Prod.snd).flatten := by
  intro bs
  induction bs with
  | nil => exact fun st _ => ⟨[], by simp, by simp, by simp⟩
  | cons b bs' ih =>
    intro st hTextOk
    obtain ⟨piece, urls, hgood, hcontent, -, hurls⟩ :=
      processBlock_emits ctx i st b (hTextOk b (List.mem_cons_self _ _)) hstore hdesc
    obtain ⟨ps', hgood', hcontent', hurls'⟩ :=
      ih (processBlock ctx i st b) (fun x hx => hTextOk x (List.mem_cons_of_mem _ hx))
    refine ⟨(piece, urls) :: ps', ?_, ?_, ?_⟩
    · intro pr hpr
      rcases List.mem_cons.mp hpr with rfl | hpr'
      · exact hgood
      · exact hgood' pr hpr'
    · simp only [List.foldl_cons, hcontent', hcontent, List.map_cons, List.flatten_cons,
        List.append_assoc]
    · simp only [List.foldl_cons, hurls', hurls, List.map_cons, List.flatten_cons,
        List.append_assoc]

theorem procPages_emits (ctx : Ctx) (total : Nat) (hstore : GoodStore ctx.store)
    (hdesc : GoodDescribe ctx.describe) :
    ∀ (pgs : List (List Block)) (idx : Nat) (st : PState),
      (∀ pg ∈ pgs, ∀ b ∈ pg, TextOk b) →
    ∃ ps : List (List Char × List (List Char)),
      (∀ pr ∈ ps, GoodPiece pr.1 pr.2) ∧
      (procPages ctx total idx pgs st).content = st.content ++ (ps.map Prod.fst).flatten ∧
      producedUrls ctx.store (procPages ctx total idx pgs st).trace =
        producedUrls ctx.store st.trace ++ (ps.map Prod.snd).flatten := by
  intro pgs
  induction pgs with
  | nil => exact fun idx st _ => ⟨[], by simp, by simp [procPages], by simp [procPages]⟩
  | cons pg rest ih =>
    intro idx st hok
    have hpg : ∀ b ∈ sortBlocks pg, TextOk b := by
      intro b hb
      have : b ∈ pg := by simpa [sortBlocks] using hb
      exact hok pg (List.mem_cons_self _ _) b this
    obtain ⟨ps1, hgood1, hcontent1, hurls1⟩ :=
      foldl_emits ctx idx hstore hdesc (sortBlocks pg)
        { st with trace := st.trace ++ [Ev.progress (idx + 1) total,
            Ev.statusText (statusLine idx total)] } hpg
    obtain ⟨ps2, hgood2, hcontent2, hurls2⟩ :=
      ih (idx + 1) (processPage ctx total idx pg st)
        (fun q hq => hok q (List.mem_cons_of_mem _ hq))
    refine ⟨ps1 ++ ps2, ?_, ?_, ?_⟩
    · intro pr hpr
      rcases List.mem_append.mp hpr with h | h
      · exact hgood1 pr h
      · exact hgood2 pr h
    · rw [procPages, hcontent2]
      have : (processPage ctx total idx pg st).content =
          st.content ++ (ps1.map Prod.fst).flatten := by
        rw [processPage]
        exact hcontent1
      rw [this]
      simp [List.append_assoc]
    · rw [procPages, hurls2]
      have : producedUrls ctx.store (processPage ctx total idx pg st).trace =
          producedUrls ctx.store st.trace ++ (ps1.map Prod.snd).flatten := by
        rw [processPage]
        simp only [producedUrls_append]
        have h0 : producedUrls ctx.store [Ev.progress (idx + 1) total,
            Ev.statusText (statusLine idx total)] = [] := rfl
        have h1 : producedUrls ctx.store [Ev.pageDone idx] = [] := rfl
        rw [h1] at *
        simp only [producedUrls_append] at hurls1 ⊢
        rw [hurls1, h0]
        simp
      rw [this]
      simp [List.append_assoc]

/-! ### Shape of the event trace -/

theorem processBlock_trace_ext (ctx : Ctx) (i : Nat) (st : PState) (b : Block) :
    ∃ tl, (processBlock ctx i st b).trace = st.trace ++ tl ∧ progressFracs tl = [] := by
  cases b with
  | text y lns =>
    by_cases ht : pyStrip (joinSep [' '] lns.flatten) = []
    · exact ⟨[], by simp [processBlock, ht], rfl⟩
    · exact ⟨[], by simp [processBlock, ht], rfl⟩
  | image y bytes ext0 =>
    by_cases hlen : bytes.length < 2048
    · exact ⟨[], by simp [processBlock, hlen], rfl⟩
    · exact ⟨[Ev.storeCall bytes
          ("doc_".data ++ spacesToUnderscores (beforeFirstDot ctx.fileName) ++ "_p".data ++
            natRepr i ++ "_img".data ++ natRepr (st.count + 1) ++ ['.'] ++ ext0),
        Ev.describeCall bytes],
        by simp [processBlock, hlen], rfl⟩

theorem foldl_trace_ext (ctx : Ctx) (i : Nat) :
    ∀ (bs : List Block) (st : PState),
    ∃ tl, (bs.foldl (processBlock ctx i) st).trace = st.trace ++ tl ∧ progressFracs tl = [] := by
  intro bs
  induction bs with
  | nil => exact fun st => ⟨[], by simp, rfl⟩
  | cons b bs' ih =>
    intro st
    obtain ⟨t1, h1, hp1⟩ := processBlock_trace_ext ctx i st b
    obtain ⟨t2, h2, hp2⟩ := ih (processBlock ctx i st b)
    refine ⟨t1 ++ t2, ?_, ?_⟩
    · rw [List.foldl_cons, h2, h1, List.append_assoc]
    · rw [progressFracs_append, hp1, hp2]
      rfl

theorem processPage_trace (ctx : Ctx) (total idx : Nat) (pg : List Block) (st : PState) :
    ∃ tl, (processPage ctx total idx pg st).trace =
      st.trace ++ ([Ev.progress (idx + 1) total, Ev.statusText (statusLine idx total)] ++
        (tl ++ [Ev.pageDone idx])) ∧ progressFracs tl = [] := by
  obtain ⟨tl, htl, hp⟩ := foldl_trace_ext ctx idx (sortBlocks pg)
    { st with trace := st.trace ++ [Ev.progress (idx + 1) total,
        Ev.statusText (statusLine idx total)] }
  refine ⟨tl, ?_, hp⟩
  rw [processPage]
  simp only [htl, List.append_assoc]

theorem procPages_trace_ext (ctx : Ctx) (total : Nat) :
    ∀ (pgs : List (List Block)) (idx : Nat) (st : PState),
    ∃ tl, (procPages ctx total idx pgs st).trace = st.trace ++ tl := by
  intro pgs
  induction pgs with
  | nil => exact fun idx st => ⟨[], by simp [procPages]⟩
  | cons pg rest ih =>
    intro idx st
    obtain ⟨t2, h2⟩ := ih (idx + 1) (processPage ctx total idx pg st)
    obtain ⟨t1, h1, -⟩ := processPage_trace ctx total idx pg st
    refine ⟨[Ev.progress (idx + 1) total, Ev.statusText (statusLine idx total)] ++
      (t1 ++ [Ev.pageDone idx]) ++ t2, ?_⟩
    rw [procPages, h2, h1]
    simp [List.append_assoc]

theorem procPages_fracs (ctx : Ctx) (total : Nat) :
    ∀ (pgs : List (List Block)) (idx : Nat) (st : PState),
    progressFracs (procPages ctx total idx pgs st).trace =
      progressFracs st.trace ++
        (List.range' (idx + 1) pgs.length).map (fun k : Nat => (k : Rat) / (total : Rat)) := by
  intro pgs
  induction pgs with
  | nil => intro idx st; simp [procPages]
  | cons pg rest ih =>
    intro idx st
    rw [procPages, ih]
    obtain ⟨t1, h1, hp1⟩ := processPage_trace ctx total idx pg st
    rw [h1]
    simp only [progressFracs_append, hp1]
    have hone : progressFracs
        [Ev.progress (idx + 1) total, Ev.statusText (statusLine idx total)] =
        [((idx + 1 : Nat) : Rat) / (total : Rat)] := rfl
    have hnil : progressFracs [Ev.pageDone idx] = [] := rfl
    rw [hone, hnil]
    have hr : List.range' (idx + 1) (pg :: rest).length =
        (idx + 1) :: List.range' (idx + 1 + 1) rest.length := List.range'_succ _ _ _
    rw [hr]
    simp [List.append_assoc]

theorem procPages_pageOrder (ctx : Ctx) (total : Nat) :
    ∀ (pgs : List (List Block)) (idx : Nat) (st : PState) (k : Nat), k < pgs.length →
    [Ev.progress (idx + k + 1) total, Ev.pageDone (idx + k)] <+
      (procPages ctx total idx pgs st).trace := by
  intro pgs
  induction pgs with
  | nil => intro idx st k hk; simp at hk
  | cons pg rest ih =>
    intro idx st k hk
    cases k with
    | zero =>
      simp only [Nat.add_zero]
      obtain ⟨t1, h1, -⟩ := processPage_trace ctx total idx pg st
      obtain ⟨t2, h2⟩ := procPages_trace_ext ctx total rest (idx + 1)
        (processPage ctx total idx pg st)
      rw [procPages, h2, h1]
      have hmid : [Ev.progress (idx + 1) total, Ev.pageDone idx] <+
          ([Ev.progress (idx + 1) total, Ev.statusText (statusLine idx total)] ++
            (t1 ++ [Ev.pageDone idx])) := by
        have hpr : [Ev.progress (idx + 1) total] <+
            Ev.progress (idx + 1) total :: (Ev.statusText (statusLine idx total) :: t1) :=
          List.Sublist.cons₂ _ (List.nil_sublist _)
        have hpd : [Ev.pageDone idx] <+ [Ev.pageDone idx] := List.Sublist.refl _
        have := hpr.append hpd
        simpa [List.append_assoc] using this
      have hall : [Ev.progress (idx + 1) total, Ev.pageDone idx] <+
          st.trace ++ ([Ev.progress (idx + 1) total, Ev.statusText (statusLine idx total)] ++
            (t1 ++ [Ev.pageDone idx])) := by
        have := (List.nil_sublist st.trace).append hmid
        simpa using this
      calc [Ev.progress (idx + 1) total, Ev.pageDone idx]
          <+ st.trace ++ ([Ev.progress (idx + 1) total,
              Ev.statusText (statusLine idx total)] ++ (t1 ++ [Ev.pageDone idx])) := hall
        _ <+ st.trace ++ ([Ev.progress (idx + 1) total,
              Ev.statusText (statusLine idx total)] ++ (t1 ++ [Ev.pageDone idx])) ++ t2 :=
            List.sublist_append_left _ _
    | succ j =>
      have hj : j < rest.length := by simpa using Nat.lt_of_succ_lt_succ hk
      have := ih (idx + 1) (processPage ctx total idx pg st) j hj
      rw [procPages]
      have e1 : idx + 1 + j + 1 = idx + (j + 1) + 1 := by omega
      have e2 : idx + 1 + j = idx + (j + 1) := by omega
      rw [e1, e2] at this
      exact this

/-! ### Remaining helper lemmas -/

theorem hlenBig : ¬ (bigBytes.length < 2048) := by
  rw [bigBytes, List.length_replicate]
  omega

theorem delete_document_true (o : DelOracle) :
    delete_document true o =
      (match o.fetchContent with
        | .error _ => [DelEv.cleanupWarning]
        | .ok none => []
        | .ok (some content) =>
          if (filesToRemove content).isEmpty then []
          else match o.removeResult with
            | .ok _ => [DelEv.removeCall (filesToRemove content)]
            | .error _ => [DelEv.removeCall (filesToRemove content), DelEv.cleanupWarning]) ++
      (match o.deleteResult with
        | .ok _ => [DelEv.deleteRowCall, DelEv.successToast]
        | .error _ => [DelEv.deleteRowCall, DelEv.deleteError]) := rfl

/-! ## The claims -/

/-- Claim C1 (amended): for every image block whose raw byte length is
below the 2048-byte threshold, the per-block loop makes no store call and
no describe call, emits no inline token (content is unchanged), but the
per-document image ordinal is nevertheless incremented by one: the code
increments `image_count` before the threshold test, so the ordinal counts
every image block, not only those at or above the threshold. -/
theorem c1_below_threshold_amended (ctx : Ctx) (i : Nat) (st : PState) (y : Rat)
    (bytes : List Nat) (ext0 : List Char) (h : bytes.length < 2048) :
    processBlock ctx i st (Block.image y bytes ext0) = { st with count := st.count + 1 } := by
  simp [processBlock, h]

/-- Witness for C1: a concrete sub-threshold image leaves content and
trace empty and sets the ordinal to one. -/
theorem c1_below_threshold_witness :
    processBlock sampleCtx 0 { content := [], count := 0, trace := [] }
      (Block.image 0 [7] "png".data) = { content := [], count := 1, trace := [] } :=
  c1_below_threshold_amended sampleCtx 0 { content := [], count := 0, trace := [] }
    0 [7] "png".data (by decide)

/-- Counterexample for C1 as stated: a document consisting of one page
with a single 1-byte image ends with image ordinal 1, not the unchanged 0
the claim requires. -/
theorem c1_ordinal_counterexample :
    ¬ ((processPdfFile sampleCtx [[Block.image 0 [7] "png".data]]).count = 0) := by
  decide

/-- Claim C4 (confirmed): `upload_image_to_storage` is a total function
(never raises).  With credentials present it returns the deterministic
public URL exactly on HTTP status 200, status 409 or a response body
containing "Duplicate", the upload-failed placeholder on any other
response, and the error placeholder when the request raises; with missing
credentials it returns the credentials placeholder. -/
theorem c4_upload_total (supabaseUrl supabaseKey : Option (List Char))
    (bytes : List Nat) (fname : List Char) (post : HttpOutcome) :
    ((isFalsyStr supabaseUrl || isFalsyStr supabaseKey) = true →
      upload_image_to_storage supabaseUrl supabaseKey bytes fname post = credsPlaceholder)
    ∧ ((isFalsyStr supabaseUrl || isFalsyStr supabaseKey) = false →
      (post = HttpOutcome.raised →
        upload_image_to_storage supabaseUrl supabaseKey bytes fname post = errorPlaceholder)
      ∧ (∀ status text, post = HttpOutcome.response status text →
        ((status = 200 ∨ status = 409 ∨ containsSub "Duplicate".data text = true) →
          upload_image_to_storage supabaseUrl supabaseKey bytes fname post =
            publicUrl (supabaseUrl.getD []) fname)
        ∧ (¬ (status = 200 ∨ status = 409 ∨ containsSub "Duplicate".data text = true) →
          upload_image_to_storage supabaseUrl supabaseKey bytes fname post =
            failedPlaceholder))) := by
  refine ⟨fun hcreds => ?_, fun hcreds => ⟨fun hraised => ?_, fun status text hresp => ?_⟩⟩
  · simp [upload_image_to_storage, hcreds]
  · subst hraised
    simp [upload_image_to_storage, hcreds]
  · subst hresp
    constructor
    · intro hok
      have hcond : (status == 200 || status == 409 || containsSub "Duplicate".data text) = true := by
        rcases hok with h | h | h <;> simp [h]
      simp [upload_image_to_storage, hcreds, hcond]
    · intro hbad
      have hcond : (status == 200 || status == 409 || containsSub "Duplicate".data text) = false := by
        rcases h1 : (status == 200) with _ | _
        · rcases h2 : (status == 409) with _ | _
          · rcases h3 : containsSub "Duplicate".data text with _ | _
            · rfl
            · exact absurd (Or.inr (Or.inr h3)) hbad
          · exact absurd (Or.inr (Or.inl (by simpa using h2))) hbad
        · exact absurd (Or.inl (by simpa using h1)) hbad
      simp [upload_image_to_storage, hcreds, hcond]

/-- Witness for C4: a 200 response with credentials present yields the
public URL. -/
theorem c4_upload_witness :
    upload_image_to_storage (some ("https://s".data)) (some ("k".data)) [] "f.png".data
      (HttpOutcome.response 200 []) = publicUrl "https://s".data "f.png".data :=
  (((c4_upload_total (some ("https://s".data)) (some ("k".data)) [] "f.png".data
      (HttpOutcome.response 200 [])).2 (by decide)).2 200 [] rfl).1 (Or.inl rfl)

/-- Claim C5 (amended): for every image that is enriched (at or above the
threshold), the derived storage key is
`doc_<name-truncated-at-first-dot, spaces to underscores>_p<page>_img<ordinal>.<ext>`
with the 0-based page index, and the emitted token's caption uses the
1-based page number `i + 1`; the code truncates the source name at its
FIRST dot (`split('.')[0]`), not merely stripping the extension. -/
theorem c5_storage_key_amended (ctx : Ctx) (i : Nat) (st : PState) (y : Rat)
    (bytes : List Nat) (ext0 : List Char) (h : 2048 ≤ bytes.length) :
    processBlock ctx i st (Block.image y bytes ext0) =
      { content := st.content ++
          slideToken (ctx.store bytes (derivedKey ctx.fileName i (st.count + 1) ext0))
            (st.count + 1) (i + 1) (cleanQuotes (ctx.describe bytes)) ++ "\n".data,
        count := st.count + 1,
        trace := st.trace ++
          [Ev.storeCall bytes (derivedKey ctx.fileName i (st.count + 1) ext0),
           Ev.describeCall bytes] } := by
  have hlt : ¬ (bytes.length < 2048) := by omega
  simp [processBlock, hlt, derivedKey]

/-- Witness for C5: the amended key equation at a concrete 2048-byte
image. -/
theorem c5_storage_key_witness :
    processBlock dottedCtx 0 { content := [], count := 0, trace := [] }
      (Block.image 0 bigBytes "png".data) =
      { content := [] ++
          slideToken (dottedCtx.store bigBytes (derivedKey dottedCtx.fileName 0 (0 + 1) "png".data))
            (0 + 1) (0 + 1) (cleanQuotes (dottedCtx.describe bigBytes)) ++ "\n".data,
        count := 0 + 1,
        trace := [] ++
          [Ev.storeCall bigBytes (derivedKey dottedCtx.fileName 0 (0 + 1) "png".data),
           Ev.describeCall bigBytes] } :=
  c5_storage_key_amended dottedCtx 0 { content := [], count := 0, trace := [] }
    0 bigBytes "png".data (by rw [bigBytes, List.length_replicate])

/-- Counterexample for C5 as stated: for the source name `a.b.pdf` the
pipeline stores under `doc_a_p0_img1.png` (name truncated at the first
dot), which differs from the specification's
`doc_a.b_p0_img1.png` (only the extension stripped). -/
theorem c5_storage_key_counterexample :
    (processPdfFile dottedCtx [[Block.image 0 bigBytes "png".data]]).trace =
      [Ev.progress 1 1, Ev.statusText (statusLine 0 1),
       Ev.storeCall bigBytes (derivedKey "a.b.pdf".data 0 1 "png".data),
       Ev.describeCall bigBytes, Ev.pageDone 0,
       Ev.progressPct 100, Ev.statusText ("Done!".data)]
    ∧ derivedKey "a.b.pdf".data 0 1 "png".data ≠ specKey "a.b.pdf".data 0 1 "png".data := by
  constructor
  · simp [processPdfFile, procPages, processPage, processBlock, sortBlocks, hlenBig,
      derivedKey, dottedCtx]
  · decide

/-- Claim C6 (amended): the run fails (the `fitz.open` exception
propagates) exactly when the buffer is not a valid PDF; a valid PDF that
PyMuPDF opens with zero pages is NOT rejected — the page loop runs zero
times and the function returns successfully with empty content. -/
theorem c6_malformed_amended (ctx : Ctx) (pdf : Option (List (List Block))) :
    (processPdfFileE ctx pdf = Except.error () ↔ pdf = none)
    ∧ ∀ pages, pdf = some pages →
        processPdfFileE ctx pdf = Except.ok (processPdfFile ctx pages) := by
  cases pdf <;> simp [processPdfFileE]

/-- Witness for C6: an unreadable buffer makes the run fail. -/
theorem c6_malformed_witness : processPdfFileE sampleCtx none = Except.error () :=
  (c6_malformed_amended sampleCtx none).1.mpr rfl

/-- Counterexample for C6 as stated: a valid PDF with zero pages does not
produce the `MalformedDocument` failure the claim requires — processing
succeeds and returns the empty document. -/
theorem c6_zero_pages_counterexample :
    processPdfFileE sampleCtx (some []) ≠ Except.error ()
    ∧ (processPdfFile sampleCtx []).content = [] := by
  constructor
  · simp [processPdfFileE]
  · decide

/-- Claim C7 (confirmed): the per-page sort orders blocks by non-decreasing
top-edge coordinate, and blocks with equal coordinates keep their original
extractor-reported relative order (for every key value, filtering the
sorted list by that key gives exactly the original filtered sequence). -/
theorem c7_sort_stable (bs : List Block) :
    (sortBlocks bs).Pairwise (fun a b => blockY a ≤ blockY b)
    ∧ ∀ y : Rat, (sortBlocks bs).filter (fun b => blockY b == y) =
        bs.filter (fun b => blockY b == y) := by
  have hTot : IsTotal Block (fun a b => blockY a ≤ blockY b) := ⟨fun a b => le_total _ _⟩
  have hTrans : IsTrans Block (fun a b => blockY a ≤ blockY b) :=
    ⟨fun _ _ _ h1 h2 => le_trans h1 h2⟩
  constructor
  · exact List.sorted_insertionSort _ bs
  · intro y
    have hsub : bs.filter (fun b => blockY b == y) <+ sortBlocks bs := by
      apply List.sublist_insertionSort
      · apply List.pairwise_of_forall_mem_list
        intro a ha b hb
        have h1 : blockY a = y := by simpa using (List.mem_filter.mp ha).2
        have h2 : blockY b = y := by simpa using (List.mem_filter.mp hb).2
        rw [h1, h2]
      · exact List.filter_sublist bs
    have hsub2 : bs.filter (fun b => blockY b == y) <+
        (sortBlocks bs).filter (fun b => blockY b == y) := by
      have := hsub.filter (fun b => blockY b == y)
      simpa [List.filter_filter] using this
    have hlen : ((sortBlocks bs).filter (fun b => blockY b == y)).length =
        (bs.filter (fun b => blockY b == y)).length :=
      ((List.perm_insertionSort _ bs).filter _).length_eq
    exact (hsub2.eq_of_length hlen.symm).symm

/-- Claim C10 (confirmed): `get_upload_history` never raises; it returns
the empty list when no client is configured or the query raises, and
otherwise at most 50 rows ordered by creation timestamp descending. -/
theorem c10_history_safe (configured : Bool) (table : List HistRow) (queryRaises : Bool) :
    (configured = false → get_upload_history configured table queryRaises = [])
    ∧ (queryRaises = true → get_upload_history configured table queryRaises = [])
    ∧ (get_upload_history configured table queryRaises).length ≤ 50
    ∧ (get_upload_history configured table queryRaises).Pairwise
        (fun a b => b.created_at ≤ a.created_at) := by
  have hTot : IsTotal HistRow (fun a b => b.created_at ≤ a.created_at) :=
    ⟨fun a b => le_total _ _⟩
  have hTrans : IsTrans HistRow (fun a b => b.created_at ≤ a.created_at) :=
    ⟨fun _ _ _ h1 h2 => le_trans h2 h1⟩
  refine ⟨fun h => by simp [get_upload_history, h], fun h => ?_, ?_, ?_⟩
  · cases configured <;> simp [get_upload_history, h]
  · cases configured <;> cases queryRaises <;>
      simp [get_upload_history, historyQuery, List.length_take_le]
  · cases configured <;> cases queryRaises <;>
      simp only [get_upload_history, Bool.not_true, Bool.not_false, if_true, if_false,
        List.Pairwise.nil]
    all_goals first
      | exact List.Pairwise.nil
      | exact (List.sorted_insertionSort _ table).sublist (List.take_sublist _ _)

/-- Witness for C10: with no configured client the history is empty. -/
theorem c10_history_witness : get_upload_history false [] false = [] :=
  (c10_history_safe false [] false).1 rfl

/-- Claim C2 (amended): the flattened document round-trips through the
URL-attribute pattern — parsing `full_content` with
`url="([^"]+)"` yields exactly the URLs produced during linearization, in
order — provided the store returns nonempty quote-free URLs, no escaped
description ends in `url=`, and no text fragment contains an occurrence
of `url="`.  (The built-in quote replacement alone does not guarantee
this; see the counterexample.) -/
theorem c2_roundtrip_amended (ctx : Ctx) (pages : List (List Block))
    (hstore : GoodStore ctx.store) (hdesc : GoodDescribe ctx.describe)
    (htext : ∀ pg ∈ pages, ∀ b ∈ pg, TextOk b) :
    findUrls (processPdfFile ctx pages).content =
      producedUrls ctx.store (processPdfFile ctx pages).trace := by
  obtain ⟨ps, hgood, hcontent, hurls⟩ :=
    procPages_emits ctx pages.length hstore hdesc pages 0
      { content := [], count := 0, trace := [] } htext
  have hc : (processPdfFile ctx pages).content =
      (procPages ctx pages.length 0 pages { content := [], count := 0, trace := [] }).content :=
    rfl
  have htr : (processPdfFile ctx pages).trace =
      (procPages ctx pages.length 0 pages { content := [], count := 0, trace := [] }).trace ++
        [Ev.progressPct 100, Ev.statusText ("Done!".data)] := rfl
  rw [hc, htr, producedUrls_append]
  have h0 : producedUrls ctx.store [Ev.progressPct 100, Ev.statusText ("Done!".data)] = [] := rfl
  rw [h0, List.append_nil, hcontent, hurls]
  have h1 : producedUrls ctx.store ([] : List Ev) = [] := rfl
  rw [h1, List.nil_append, List.nil_append]
  exact findUrls_pieces ps hgood

/-- Witness for C2: the round trip at a one-page document holding a single
enriched image. -/
theorem c2_roundtrip_witness :
    findUrls (processPdfFile dottedCtx [[Block.image 0 bigBytes "png".data]]).content =
      producedUrls dottedCtx.store
        (processPdfFile dottedCtx [[Block.image 0 bigBytes "png".data]]).trace := by
  apply c2_roundtrip_amended
  · intro bytes fname
    refine ⟨?_, ?_⟩ <;> simp only [dottedCtx, sampleStore] <;> decide
  · intro bytes hsuf
    obtain ⟨t, ht⟩ := hsuf
    have hlen := congrArg List.length ht
    simp [dottedCtx, sampleDescribe, cleanQuotes, urlEq] at hlen
  · intro pg hpg b hb y lns hbeq
    simp only [List.mem_singleton] at hpg
    subst hpg
    simp only [List.mem_singleton] at hb
    subst hb
    simp at hbeq

/-- Counterexample for C2 as stated: a page whose text itself contains
`url="x"` makes the parse return a URL the linearizer never produced, so
quote replacement in descriptions alone does not guarantee the round
trip. -/
theorem c2_roundtrip_counterexample :
    findUrls ((processPdfFile sampleCtx [[Block.text 0 [["url=\"x\"".data]]]]).content) ≠
      producedUrls sampleCtx.store
        ((processPdfFile sampleCtx [[Block.text 0 [["url=\"x\"".data]]]]).trace) := by
  decide

/-- Claim C3 (amended): the fractional progress reports form exactly the
sequence 1/N, ..., N/N — strictly increasing, ending at 1 — but each
page's report is issued when the iteration for that page begins, before
the page is processed, not after its completion (and a final integer
`progress(100)` call follows the loop). -/
theorem c3_progress_amended (ctx : Ctx) (pages : List (List Block)) (hne : pages ≠ []) :
    progressFracs (processPdfFile ctx pages).trace =
      (List.range' 1 pages.length).map (fun k : Nat => (k : Rat) / (pages.length : Rat))
    ∧ (progressFracs (processPdfFile ctx pages).trace).getLast? = some 1
    ∧ (progressFracs (processPdfFile ctx pages).trace).Pairwise (· < ·)
    ∧ ∀ i < pages.length,
        [Ev.progress (i + 1) pages.length, Ev.pageDone i] <+ (processPdfFile ctx pages).trace := by
  have htr : (processPdfFile ctx pages).trace =
      (procPages ctx pages.length 0 pages { content := [], count := 0, trace := [] }).trace ++
        [Ev.progressPct 100, Ev.statusText ("Done!".data)] := rfl
  have hfr : progressFracs (processPdfFile ctx pages).trace =
      (List.range' 1 pages.length).map (fun k : Nat => (k : Rat) / (pages.length : Rat)) := by
    rw [htr, progressFracs_append]
    have h2 : progressFracs [Ev.progressPct 100, Ev.statusText ("Done!".data)] = [] := rfl
    rw [h2, List.append_nil]
    have h3 := procPages_fracs ctx pages.length pages 0 { content := [], count := 0, trace := [] }
    simpa using h3
  have hpos : 0 < pages.length := List.length_pos.mpr hne
  refine ⟨hfr, ?_, ?_, ?_⟩
  · rw [hfr]
    obtain ⟨m, hm⟩ : ∃ m, pages.length = m + 1 := ⟨pages.length - 1, by omega⟩
    rw [hm]
    have hc := List.range'_1_concat 1 m
    rw [hc, List.map_append]
    rw [List.getLast?_append_of_ne_nil _ (by simp)]
    have hv : ((1 + m : Nat) : Rat) / ((m + 1 : Nat) : Rat) = 1 := by
      rw [div_eq_one_iff_eq]
      · push_cast
        ring
      · exact_mod_cast Nat.succ_ne_zero m
    simpa using hv
  · rw [hfr, List.pairwise_map]
    have hq : (0 : Rat) < (pages.length : Rat) := by exact_mod_cast hpos
    have hbase : (List.range' 1 pages.length).Pairwise (· < ·) :=
      List.pairwise_lt_range' 1 pages.length
    apply hbase.imp
    intro a b hab
    exact (div_lt_div_iff_of_pos_right hq).mpr (by exact_mod_cast hab)
  · intro i hi
    have hsub := procPages_pageOrder ctx pages.length pages 0
      { content := [], count := 0, trace := [] } i hi
    simp only [Nat.zero_add] at hsub
    rw [htr]
    exact hsub.trans (List.sublist_append_left _ _)

/-- Witness for C3: a one-page document's reports end at the full
fraction 1. -/
theorem c3_progress_witness :
    (progressFracs (processPdfFile sampleCtx [[]]).trace).getLast? = some 1 :=
  (c3_progress_amended sampleCtx [[]] (by decide)).2.1

/-- Counterexample for C3 as stated: for a one-page document the progress
report for the page is never issued after that page's iteration has
completed — the update precedes the page's processing. -/
theorem c3_progress_counterexample :
    ¬ ([Ev.pageDone 0, Ev.progress 1 1] <+ (processPdfFile sampleCtx [[]]).trace) := by
  decide

/-- Claim C8 (confirmed): `delete_document` always attempts the
metadata-row deletion, whatever the content lookup, the blob removal or
the row deletion itself do; and when the lookup finds content with bucket
files to remove, the single storage-removal call carrying exactly those
files precedes the metadata-row deletion. -/
theorem c8_delete_order (o : DelOracle) :
    DelEv.deleteRowCall ∈ delete_document true o
    ∧ ∀ content, o.fetchContent = Except.ok (some content) →
        filesToRemove content ≠ [] →
        [DelEv.removeCall (filesToRemove content), DelEv.deleteRowCall] <+
          delete_document true o := by
  obtain ⟨fetchC, removeR, deleteR⟩ := o
  constructor
  · rw [delete_document_true]
    rcases deleteR with _ | _ <;>
      exact List.mem_append_right _ (List.mem_cons_self _ _)
  · intro content hfetch hne
    have hf : fetchC = Except.ok (some content) := hfetch
    subst hf
    rw [delete_document_true]
    dsimp only
    have hemp : (filesToRemove content).isEmpty = false := by
      cases h : (filesToRemove content).isEmpty
      · rfl
      · exact absurd (List.isEmpty_iff.mp h) hne
    rw [hemp]
    rcases removeR with _ | _ <;> rcases deleteR with _ | _ <;> first
      | exact List.Sublist.cons₂ _ (List.Sublist.cons₂ _ (List.nil_sublist _))
      | exact List.Sublist.cons₂ _
          (List.Sublist.cons _ (List.Sublist.cons₂ _ (List.nil_sublist _)))

/-- Witness for C8: with one bucket URL in the content and both external
calls raising, the removal call still precedes the attempted row
deletion. -/
theorem c8_delete_witness :
    [DelEv.removeCall (filesToRemove ("url=\"https://s/lecture-images/f.png\"".data)),
     DelEv.deleteRowCall] <+
      delete_document true
        { fetchContent := Except.ok (some ("url=\"https://s/lecture-images/f.png\"".data)),
          removeResult := Except.error (), deleteResult := Except.error () } :=
  (c8_delete_order _).2 _ rfl (by decide)

/-- Claim C9 (confirmed): only extracted URLs containing the bucket
segment `/lecture-images/` are submitted for removal; the three
placeholder URLs do not contain it and so are never submitted; and when
no URL matches the bucket, no storage-removal call is made at all. -/
theorem c9_bucket_only (o : DelOracle) (content : List Char)
    (hfetch : o.fetchContent = Except.ok (some content)) :
    (∀ fs, DelEv.removeCall fs ∈ delete_document true o →
      ∀ f ∈ fs, ∃ u ∈ findUrls content, containsSub bucketSeg u = true ∧ f = afterBucket u)
    ∧ ((∀ u ∈ findUrls content, containsSub bucketSeg u = false) →
      ∀ fs, DelEv.removeCall fs ∉ delete_document true o)
    ∧ containsSub bucketSeg credsPlaceholder = false
    ∧ containsSub bucketSeg failedPlaceholder = false
    ∧ containsSub bucketSeg errorPlaceholder = false := by
  obtain ⟨fetchC, removeR, deleteR⟩ := o
  have hf : fetchC = Except.ok (some content) := hfetch
  subst hf
  refine ⟨?_, ?_, by decide, by decide, by decide⟩
  · intro fs hmem f hf0
    rw [delete_document_true] at hmem
    dsimp only at hmem
    by_cases hemp : (filesToRemove content).isEmpty = true
    · rw [if_pos hemp] at hmem
      rcases deleteR with _ | _ <;> simp at hmem
    · rw [if_neg hemp] at hmem
      have hfs : fs = filesToRemove content := by
        rcases removeR with _ | _ <;> rcases deleteR with _ | _ <;> simpa using hmem
      subst hfs
      rw [filesToRemove] at hf0
      obtain ⟨u, hu, rfl⟩ := List.mem_map.mp hf0
      have hu2 := List.mem_filter.mp hu
      exact ⟨u, hu2.1, hu2.2, rfl⟩
  · intro hall fs hmem
    have hnil : filesToRemove content = [] := by
      rw [filesToRemove]
      have hfe : (findUrls content).filter (fun u => containsSub bucketSeg u) = [] := by
        rw [List.filter_eq_nil_iff]
        intro u hu
        simp [hall u hu]
      rw [hfe]
      rfl
    rw [delete_document_true] at hmem
    dsimp only at hmem
    rw [hnil] at hmem
    rcases deleteR with _ | _ <;> simp at hmem

/-- Witness for C9: content with no bucket URL leads to no removal call. -/
theorem c9_bucket_witness :
    DelEv.removeCall [] ∉ delete_document true
      { fetchContent := Except.ok (some ("x".data)),
        removeResult := Except.ok (), deleteResult := Except.ok () } :=
  ((c9_bucket_only _ _ rfl).2.1 (by decide)) []
